import Mathlib

/-!
Verification of the core text utilities of the grammar-checker bot:
the message coalescer (`combine_messages`) and the markup-safe splitter
(`split_response`) from `message_handler.py`, plus the user bookkeeping
from `user_manager.py`.  Strings are modelled as `List Char`; Python
integers that may go negative are modelled as `Int`.
-/

/-- Shorthand: the character list underlying a string literal. -/
def str (s : String) : List Char := s.data

/-- Python's `\s` / default `strip` whitespace characters (ASCII range). -/
def isPySpace (c : Char) : Bool :=
  c = ' ' || c = '\t' || c = '\n' || c = '\x0d' || c = '\x0b' || c = '\x0c'

/-- Python `s.rstrip()` : drop trailing whitespace. -/
def rstripWs (s : List Char) : List Char :=
  (s.reverse.dropWhile isPySpace).reverse

/-- Python `s.lstrip()` : drop leading whitespace. -/
def lstripWs (s : List Char) : List Char :=
  s.dropWhile isPySpace

/-- Python `s.strip()` : drop whitespace on both sides. -/
def stripWs (s : List Char) : List Char :=
  lstripWs (rstripWs s)

/-- Python `s.rstrip('-')` : drop all trailing hyphens. -/
def rstripHyphens (s : List Char) : List Char :=
  (s.reverse.dropWhile (fun c => c = '-')).reverse

/-- Embeds `re.search(r'[.!?]\s*$', s)` from `combine_messages`: some
sentence-ending punctuation mark is followed only by whitespace up to the
end of the string, i.e. the right-trimmed string ends with `.`, `!` or `?`. -/
def ends_with_punct (s : List Char) : Bool :=
  match s.reverse.dropWhile isPySpace with
  | c :: _ => c = '.' || c = '!' || c = '?'
  | [] => false

/-- Embeds `re.search(r'^[a-z,;:]', s)` from `combine_messages`: the first
character is an ASCII lowercase letter, comma, semicolon or colon. -/
def starts_with_lowercase (s : List Char) : Bool :=
  match s with
  | c :: _ => c.isLower || c = ',' || c = ';' || c = ':'
  | [] => false

/-- The `for i in range(1, len(message_texts))` loop of `combine_messages`:
`acc` is `combined_text`, `prev` is `message_texts[i-1]`, and the remaining
texts are `message_texts[i:]`. -/
def combineLoop (acc : List Char) (prev : List Char) : List (List Char) → List Char
  | [] => acc
  | curr :: rest =>
    let acc' :=
      if !ends_with_punct prev || starts_with_lowercase curr then
        -- parts of the same text: hyphen merge or space join
        if (stripWs prev).getLast? = some '-' then
          rstripHyphens acc ++ curr
        else
          acc ++ ' ' :: curr
      else
        acc ++ '\n' :: '\n' :: curr
    combineLoop acc' curr rest

/-- `combine_messages(messages)` from `message_handler.py`: combine
consecutive messages if they appear to be parts of the same text.  A message
is a pair `(message_text, message_id)`. -/
def combine_messages (messages : List (List Char × Int)) : List Char × List Int :=
  match messages with
  | [] => ([], [])
  | [m] => (m.1, [m.2])
  | m :: ms =>
    let message_ids := (m :: ms).map Prod.snd
    (combineLoop m.1 m.1 (ms.map Prod.fst), message_ids)

/-- Claim-side predicate, following the spec's words: the previous text,
right-trimmed of trailing whitespace, ends with `.`, `!` or `?`. -/
def claimEndsPunct (s : List Char) : Bool :=
  match (rstripWs s).getLast? with
  | some c => c = '.' || c = '!' || c = '?'
  | none => false

/-- Claim-side predicate, following the spec's words: the current text's
first character is a lowercase letter, comma, semicolon, or colon. -/
def claimStartsCont (s : List Char) : Bool :=
  match s with
  | c :: _ => c.isLower || c = ',' || c = ';' || c = ':'
  | [] => false

/-- Claim-side pairwise decision, following the spec's words: continuation
(hyphen-merged when the previous text right-trimmed ends with `-`, otherwise
space-joined) when the previous text does not end with sentence punctuation
or the current one starts as a continuation; otherwise a paragraph break of
two newline characters. -/
def claimStep (acc prev curr : List Char) : List Char :=
  if !claimEndsPunct prev || claimStartsCont curr then
    if (rstripWs prev).getLast? = some '-' then
      rstripHyphens acc ++ curr
    else
      acc ++ ' ' :: curr
  else
    acc ++ '\n' :: '\n' :: curr

/-- Claim-side left-to-right fold over adjacent pairs. -/
def claimFold (acc prev : List Char) : List (List Char) → List Char
  | [] => acc
  | curr :: rest => claimFold (claimStep acc prev curr) curr rest

/-- Claim-side combined text for a fragment sequence, built by deciding each
adjacent pair left to right. -/
def claimCombineText (messages : List (List Char × Int)) : List Char :=
  match messages with
  | [] => []
  | m :: ms => claimFold m.1 m.1 (ms.map Prod.fst)

/-- Python `s.rfind(c)` as an optional index: the highest index whose
character is `c`, `none` when `c` does not occur. -/
def rfindNat : List Char → Char → Option Nat
  | [], _ => none
  | a :: l, c =>
    match rfindNat l c with
    | some j => some (j + 1)
    | none => if a = c then some 0 else none

/-- Python `s.rfind(c)`: the highest index whose character is `c`, `-1` when
`c` does not occur. -/
def rfind (s : List Char) (c : Char) : Int :=
  match rfindNat s c with
  | some j => (j : Int)
  | none => -1

/-- The break-point computation of `split_response` (lines 111–122): the
rightmost sentence punctuation, replaced by the rightmost space when absent or
earlier than `max_length - 200`, replaced by a hard cut at the end of the
buffer when absent or earlier than `max_length - 300`; finally advanced by
one so the break character is included in the emitted part. -/
def breakPos (maxLength : Nat) (cur : List Char) : Int :=
  let bp0 := max (rfind cur '.') (max (rfind cur '!') (rfind cur '?'))
  let bp1 := if bp0 = -1 ∨ bp0 < (maxLength : Int) - 200 then rfind cur ' ' else bp0
  let bp2 := if bp1 = -1 ∨ bp1 < (maxLength : Int) - 300 then (cur.length : Int) - 1 else bp1
  bp2 + 1

/-- The text `</tag>`. -/
def closeTagText (tag : List Char) : List Char := '<' :: '/' :: (tag ++ ['>'])

/-- The text `<tag>`. -/
def openTagText (tag : List Char) : List Char := '<' :: (tag ++ ['>'])

/-- `''.join(f t for t in tags)`. -/
def joinTags (f : List Char → List Char) : List (List Char) → List Char
  | [] => []
  | t :: ts => f t ++ joinTags f ts

/-- `''.join(f'</{tag}>' for tag in reversed(open_tags))`. -/
def closingTags (open_tags : List (List Char)) : List Char :=
  joinTags closeTagText open_tags.reverse

/-- `''.join(f'<{tag}>' for tag in open_tags)`. -/
def openingTags (open_tags : List (List Char)) : List Char :=
  joinTags openTagText open_tags

/-- The flush block of `split_response` (lines 109–135): choose a break
point, emit `current_part[:break_pos]` with every open tag closed in reverse
order, and restart the buffer with every open tag reopened followed by
`current_part[break_pos:]`.  Returns `(part_text, new current_part)`. -/
def flushStep (maxLength : Nat) (cur : List Char) (open_tags : List (List Char)) :
    List Char × List Char :=
  let bp := (breakPos maxLength cur).toNat
  (cur.take bp ++ closingTags open_tags, openingTags open_tags ++ cur.drop bp)

/-- Anchored match of the pattern `<([a-zA-Z][a-zA-Z0-9]*)(?:\s[^>]*)?>`
(`open_tag_pattern.match(text[i:])`): on success, the tag name (group 1)
and the length of the whole match (`match.end()`). -/
def matchOpenTag : List Char → Option (List Char × Nat)
  | '<' :: c :: rest =>
    if c.isAlpha then
      let run := rest.takeWhile Char.isAlphanum
      match rest.drop run.length with
      | '>' :: _ => some (c :: run, run.length + 3)
      | d :: rest2 =>
        if isPySpace d then
          let attrs := rest2.takeWhile (fun x => x ≠ '>')
          match rest2.drop attrs.length with
          | '>' :: _ => some (c :: run, run.length + attrs.length + 4)
          | _ => none
        else none
      | [] => none
    else none
  | _ => none

/-- Anchored match of the pattern `</([a-zA-Z][a-zA-Z0-9]*)>`
(`close_tag_pattern.match(text[i:])`). -/
def matchCloseTag : List Char → Option (List Char × Nat)
  | '<' :: '/' :: c :: rest =>
    if c.isAlpha then
      let run := rest.takeWhile Char.isAlphanum
      match rest.drop run.length with
      | '>' :: _ => some (c :: run, run.length + 4)
      | _ => none
    else none
  | _ => none

/-- The character-scanning `while` loop of `split_response` (lines 107–177),
with an explicit fuel bounding the number of iterations (every iteration
consumes at least one character, so fuel `text.length` is enough).  `rest` is
`text[i:]`, `cur` is `current_part`, `open_tags` the tag stack with its top
at the end of the list (as in the Python list), and `parts` the parts emitted
so far; the final `if current_part: parts.append(current_part)` is applied
when the input is exhausted. -/
def splitLoop (maxLength : Nat) :
    Nat → List Char → List Char → List (List Char) → List (List Char) → List (List Char)
  | _, [], cur, _, parts => parts ++ (if cur.isEmpty then [] else [cur])
  | 0, _ :: _, cur, _, parts => parts ++ (if cur.isEmpty then [] else [cur])
  | fuel + 1, ch :: rtl, cur0, open_tags, parts0 =>
    let st := if maxLength ≤ cur0.length then
        ((flushStep maxLength cur0 open_tags).2,
         parts0 ++ [(flushStep maxLength cur0 open_tags).1])
      else (cur0, parts0)
    let cur := st.1
    let parts := st.2
    if ch = '<' then
      match matchOpenTag (ch :: rtl) with
      | some (tag_name, tag_length) =>
        splitLoop maxLength fuel ((ch :: rtl).drop tag_length)
          (cur ++ (ch :: rtl).take tag_length)
          (if ((ch :: rtl).drop (tag_length - 2)).take 2 = ['/', '>'] then open_tags
           else open_tags ++ [tag_name])
          parts
      | none =>
        match matchCloseTag (ch :: rtl) with
        | some (tag_name, tag_length) =>
          splitLoop maxLength fuel ((ch :: rtl).drop tag_length)
            (cur ++ (ch :: rtl).take tag_length)
            (if open_tags.getLast? = some tag_name then open_tags.dropLast else open_tags)
            parts
        | none => splitLoop maxLength fuel rtl (cur ++ [ch]) open_tags parts
    else splitLoop maxLength fuel rtl (cur ++ [ch]) open_tags parts

/-- `split_response(text, max_length)` from `message_handler.py`. -/
def split_response (text : List Char) (maxLength : Nat) : List (List Char) :=
  if text.length ≤ maxLength then [text]
  else splitLoop maxLength text.length text [] [] []

/-- Independent re-scan of a single chunk with the same tag recognition and
the same stack discipline as `split_response` (push on an opening tag that is
not self-closing, pop when a closing tag matches the top), without any length
bookkeeping; returns the final open-tag stack. -/
def scanTags : Nat → List Char → List (List Char) → List (List Char)
  | _, [], open_tags => open_tags
  | 0, _ :: _, open_tags => open_tags
  | fuel + 1, ch :: rtl, open_tags =>
    if ch = '<' then
      match matchOpenTag (ch :: rtl) with
      | some (tag_name, tag_length) =>
        scanTags fuel ((ch :: rtl).drop tag_length)
          (if ((ch :: rtl).drop (tag_length - 2)).take 2 = ['/', '>'] then open_tags
           else open_tags ++ [tag_name])
      | none =>
        match matchCloseTag (ch :: rtl) with
        | some (tag_name, tag_length) =>
          scanTags fuel ((ch :: rtl).drop tag_length)
            (if open_tags.getLast? = some tag_name then open_tags.dropLast else open_tags)
        | none => scanTags fuel rtl open_tags
    else scanTags fuel rtl open_tags

/-- The open-tag stack left after scanning one chunk independently, starting
from the empty stack. -/
def chunkStack (chunk : List Char) : List (List Char) :=
  scanTags chunk.length chunk []

/-- An `Option Nat` index as a Python-style integer (`-1` for absent). -/
def optIdx : Option Nat → Int
  | some j => (j : Int)
  | none => -1

/-- Claim-side: the rightmost index in `s` whose character belongs to `S`,
`none` when no such character occurs. -/
def rightmostMem : List Char → List Char → Option Nat
  | [], _ => none
  | a :: l, S =>
    match rightmostMem l S with
    | some j => some (j + 1)
    | none => if S.contains a then some 0 else none

/-- Claim-side space fallback, following the claim's words: the rightmost
space character unless its position is earlier than `maxLength - 300`,
failing that a hard cut at the buffer's current end; a space break position
is advanced by one so the space is included. -/
def claimSpaceBreak (maxLength : Nat) (cur : List Char) : Int :=
  match rightmostMem cur [' '] with
  | some j =>
    if (j : Int) < (maxLength : Int) - 300 then (cur.length : Int) else (j : Int) + 1
  | none => (cur.length : Int)

/-- Claim-side break position, following the claim's words: the rightmost
occurrence of `.`, `!` or `?` in the buffer unless its position is earlier
than `maxLength - 200` (advanced by one so the terminating character is
included); failing that, the space fallback. -/
def claimBreakPos (maxLength : Nat) (cur : List Char) : Int :=
  match rightmostMem cur ['.', '!', '?'] with
  | some j =>
    if (j : Int) < (maxLength : Int) - 200 then claimSpaceBreak maxLength cur
    else (j : Int) + 1
  | none => claimSpaceBreak maxLength cur

/-- One user record, as stored by `UserManager.add_user` (lines 78–85 of
`user_manager.py`); timestamps are kept as opaque strings. -/
structure UserRecord where
  user_id : String
  username : Option String
  first_name : String
  joined_at : String
  total_tokens : Int
  last_activity : String
deriving DecidableEq

/-- The in-memory state of `UserManager`: admin id, user limit, and the
`users` dict, modelled as an insertion-ordered association list with unique
keys (a Python dict keyed by the stringified user id). -/
structure UserManager where
  admin_id : String
  max_users : Nat
  users : List (String × UserRecord)
deriving DecidableEq

/-- `UserManager.can_accept_new_user`: `len(self.users) < self.max_users`. -/
def can_accept_new_user (m : UserManager) : Bool :=
  m.users.length < m.max_users

/-- `UserManager.is_authorized`: `str(user_id) in self.users`. -/
def is_authorized (m : UserManager) (user_id : String) : Bool :=
  (m.users.map Prod.fst).contains user_id

/-- `UserManager.add_user` (the `save_users` call performs file I/O only and
does not change the in-memory state; `now` abstracts
`datetime.now().isoformat()`).  Returns the new state together with the
boolean the Python method returns. -/
def add_user (m : UserManager) (user_id : String) (username : Option String)
    (first_name : Option String) (now : String) : UserManager × Bool :=
  if (m.users.map Prod.fst).contains user_id then (m, false)
  else if !can_accept_new_user m then (m, false)
  else
    ({ m with users := m.users ++
        [(user_id,
          { user_id := user_id
            username := username
            first_name :=
              match first_name with
              | some s => if s = "" then "Unknown" else s
              | none => "Unknown"
            joined_at := now
            total_tokens := 0
            last_activity := now })] }, true)

/-- `UserManager.update_tokens`: add to the user's token count when the user
exists, otherwise leave the state unchanged. -/
def update_tokens (m : UserManager) (user_id : String) (tokens_used : Int) : UserManager :=
  if (m.users.map Prod.fst).contains user_id then
    { m with users := m.users.map (fun p =>
        if p.1 = user_id then
          (p.1, { p.2 with total_tokens := p.2.total_tokens + tokens_used })
        else p) }
  else m

/-- `UserManager.update_last_activity`. -/
def update_last_activity (m : UserManager) (user_id : String) (now : String) : UserManager :=
  if (m.users.map Prod.fst).contains user_id then
    { m with users := m.users.map (fun p =>
        if p.1 = user_id then (p.1, { p.2 with last_activity := now }) else p) }
  else m

/-- `UserManager.get_user_count`. -/
def get_user_count (m : UserManager) : Nat := m.users.length

/-- A concrete manager state used by witnesses. -/
def demoManager : UserManager :=
  { admin_id := "1", max_users := 2, users := [] }

/-- One syntactic item of a well-formed inline-HTML text: a literal character
(never `<`), an opening tag `<name>`, or a closing tag `</name>` —
attribute-free inline tags, the well-formed output shape the splitter is
specified for. -/
inductive HItem where
  | lit (c : Char)
  | openT (name : List Char)
  | closeT (name : List Char)
deriving DecidableEq

/-- The text of one item. -/
def renderItem : HItem → List Char
  | .lit c => [c]
  | .openT n => openTagText n
  | .closeT n => closeTagText n

/-- The text of an item sequence. -/
def renderItems : List HItem → List Char
  | [] => []
  | it :: its => renderItem it ++ renderItems its

/-- A tag name acceptable to the tag patterns: `[a-zA-Z][a-zA-Z0-9]*`. -/
def validName (n : List Char) : Bool :=
  match n with
  | [] => false
  | c :: rest => c.isAlpha && rest.all Char.isAlphanum

/-- Item well-formedness: literal characters are not `<`, tag names are
valid. -/
def validItem : HItem → Bool
  | .lit c => c ≠ '<'
  | .openT n => validName n
  | .closeT n => validName n

/-- The visible text of an item sequence: the literal characters, every tag
removed. -/
def visibleText : List HItem → List Char
  | [] => []
  | .lit c :: its => c :: visibleText its
  | .openT _ :: its => visibleText its
  | .closeT _ :: its => visibleText its

/-- Removing every HTML tag from a string: a left-to-right scan that drops
every span from a `<` up to and including the next `>` and keeps every other
character; the flag says whether the scan is currently inside a tag. -/
def stripAux : Bool → List Char → List Char
  | _, [] => []
  | false, c :: rest => if c = '<' then stripAux true rest else c :: stripAux false rest
  | true, c :: rest => if c = '>' then stripAux false rest else stripAux true rest

/-- Removing every HTML tag from a string. -/
def stripTags (s : List Char) : List Char := stripAux false s

/-- Concatenation of all chunks of a split. -/
def concatAll : List (List Char) → List Char
  | [] => []
  | p :: ps => p ++ concatAll ps

/-- A concrete well-formed item sequence used by witnesses; it renders to
`"<b>a.x</b>y"`. -/
def demoItems : List HItem :=
  [HItem.openT (str "b"), HItem.lit 'a', HItem.lit '.', HItem.lit 'x',
   HItem.closeT (str "b"), HItem.lit 'y']

-- ### helper lemmas ###

theorem dropWhile_getLast?_of_ne_nil {p : Char → Bool} :
    ∀ (t : List Char), t.dropWhile p ≠ [] → (t.dropWhile p).getLast? = t.getLast? := by
  intro t
  induction t with
  | nil => intro h; simp [List.dropWhile] at h
  | cons a l ih =>
    intro h
    by_cases hp : p a
    · rw [List.dropWhile_cons_of_pos hp] at h ⊢
      rcases l with _ | ⟨b, l'⟩
      · rw [List.dropWhile_nil] at h; exact absurd rfl h
      · exact (ih h).trans (List.getLast?_cons_cons).symm
    · exact congrArg List.getLast? (List.dropWhile_cons_of_neg hp)

theorem dropWhile_isPySpace_last_hyphen (t : List Char) :
    ((t.dropWhile isPySpace).getLast? = some '-') ↔ (t.getLast? = some '-') := by
  by_cases h : t.dropWhile isPySpace = []
  · rw [h]
    constructor
    · intro hc; simp at hc
    · intro hc
      exfalso
      rcases List.getLast?_eq_some_iff.mp hc with ⟨l', hl⟩
      have hmem : '-' ∈ t := by rw [hl]; exact List.mem_append_right _ (by simp)
      have hall : ∀ c ∈ t, isPySpace c := by
        intro c hc'
        exact List.dropWhile_eq_nil_iff.mp h c hc'
      have := hall '-' hmem
      simp [isPySpace] at this
  · rw [dropWhile_getLast?_of_ne_nil t h]

theorem ends_with_punct_eq_claim (s : List Char) :
    ends_with_punct s = claimEndsPunct s := by
  unfold ends_with_punct claimEndsPunct rstripWs
  rcases h : s.reverse.dropWhile isPySpace with _ | ⟨c, t⟩
  · simp
  · simp [List.getLast?_reverse]

theorem stripWs_hyphen_eq_rstrip (s : List Char) :
    ((stripWs s).getLast? = some '-') ↔ ((rstripWs s).getLast? = some '-') := by
  unfold stripWs lstripWs
  exact dropWhile_isPySpace_last_hyphen (rstripWs s)

theorem starts_with_lowercase_eq_claim :
    starts_with_lowercase = claimStartsCont := rfl

theorem combineLoop_eq_claimFold (rest : List (List Char)) :
    ∀ (acc prev : List Char), combineLoop acc prev rest = claimFold acc prev rest := by
  induction rest with
  | nil => intro acc prev; rfl
  | cons curr rest' ih =>
    intro acc prev
    unfold combineLoop claimFold claimStep
    rw [ends_with_punct_eq_claim, starts_with_lowercase_eq_claim]
    by_cases hc : (!claimEndsPunct prev || claimStartsCont curr) = true
    · rw [if_pos hc, if_pos hc]
      by_cases hh : (rstripWs prev).getLast? = some '-'
      · rw [if_pos ((stripWs_hyphen_eq_rstrip prev).mpr hh), if_pos hh]
        exact ih _ curr
      · rw [if_neg (fun h => hh ((stripWs_hyphen_eq_rstrip prev).mp h)), if_neg hh]
        exact ih _ curr
    · rw [if_neg hc, if_neg hc]
      exact ih _ curr

-- ### claim theorems for the coalescer ###

/-- C9: `combine_messages` applied to the empty fragment sequence does not
fail and returns the empty string together with the empty id list. -/
theorem combine_empty_input : combine_messages [] = ([], []) := rfl

/-- C4 counterexample: on the two fragments `("This is a well-", 1)` and
`("known fact.", 2)` the code does not return `"This is a well-known fact."`
— `rstrip('-')` removes the trailing hyphen before the direct concatenation. -/
theorem combine_hyphen_example_ne_spec :
    (combine_messages [(str "This is a well-", 1), (str "known fact.", 2)]).1 ≠
      str "This is a well-known fact." := by
  decide

/-- C4 amended: on that input `combine_messages` returns the text
`"This is a wellknown fact."` (all trailing hyphens of the accumulated text
stripped, current text appended with no separator) and the id list `[1, 2]`. -/
theorem combine_hyphen_example_value :
    combine_messages [(str "This is a well-", 1), (str "known fact.", 2)] =
      (str "This is a wellknown fact.", [1, 2]) := by
  decide

/-- C5: for every fragment sequence of length at least two, the combined text
of `combine_messages` is exactly the claim's left-to-right pairwise decision:
continuation (hyphen-merge or space-join) when the previous text right-trimmed
does not end with `.`, `!`, `?` or the current text starts with a lowercase
letter, comma, semicolon or colon; otherwise a two-newline paragraph break. -/
theorem combine_pairwise_matches_claim (messages : List (List Char × Int))
    (h : 2 ≤ messages.length) :
    (combine_messages messages).1 = claimCombineText messages := by
  match messages with
  | [] => simp at h
  | [m] => simp at h
  | m :: m' :: ms =>
    show combineLoop m.1 m.1 ((m' :: ms).map Prod.fst) = _
    rw [combineLoop_eq_claimFold]
    rfl

/-- C5 witness: the theorem applied to a concrete two-fragment input. -/
theorem combine_pairwise_matches_claim_wit :
    (combine_messages [(str "Done.", 1), (str "Next topic.", 2)]).1 =
      claimCombineText [(str "Done.", 1), (str "Next topic.", 2)] :=
  combine_pairwise_matches_claim [(str "Done.", 1), (str "Next topic.", 2)] (by decide)

-- ### splitter helper lemmas ###

theorem rfindNat_lt_length (c : Char) :
    ∀ (s : List Char) (j : Nat), rfindNat s c = some j → j < s.length := by
  intro s
  induction s with
  | nil => intro j h; simp [rfindNat] at h
  | cons a l ih =>
    intro j h
    unfold rfindNat at h
    rcases hr : rfindNat l c with _ | j'
    · rw [hr] at h
      by_cases ha : a = c
      · rw [if_pos ha] at h
        injection h with h
        simp [← h]
      · rw [if_neg ha] at h; exact absurd h (by simp)
    · rw [hr] at h
      injection h with h
      have := ih j' hr
      simp only [List.length_cons]
      omega

theorem rfind_neg_one_or_nonneg (s : List Char) (c : Char) :
    rfind s c = -1 ∨ (0 ≤ rfind s c ∧ rfind s c < (s.length : Int)) := by
  rcases h : rfindNat s c with _ | j
  · left; unfold rfind; rw [h]
  · right
    have hv : rfind s c = (j : Int) := by unfold rfind; rw [h]
    have := rfindNat_lt_length c s j h
    omega

theorem breakPos_bounds (maxLength : Nat) (cur : List Char) (h : 1 ≤ cur.length) :
    1 ≤ breakPos maxLength cur ∧ breakPos maxLength cur ≤ (cur.length : Int) := by
  have hd := rfind_neg_one_or_nonneg cur '.'
  have he := rfind_neg_one_or_nonneg cur '!'
  have hq := rfind_neg_one_or_nonneg cur '?'
  have hs := rfind_neg_one_or_nonneg cur ' '
  simp only [breakPos]
  split_ifs with h1 h2 h2 <;> omega

theorem mem_final_part {cur : List Char} {parts : List (List Char)} {p : List Char}
    (hp : p ∈ parts ++ (if cur.isEmpty then [] else [cur])) :
    p ∈ parts ∨ p = cur := by
  rcases List.mem_append.mp hp with h | h
  · exact Or.inl h
  · right
    by_cases hc : cur.isEmpty
    · rw [if_pos hc] at h; simp at h
    · rw [if_neg hc] at h; simpa using h

theorem splitLoop_tagfree_bound (maxLength : Nat) (hmax : 1 ≤ maxLength) :
    ∀ (fuel : Nat) (rest cur : List Char) (parts : List (List Char)),
      (∀ c ∈ rest, c ≠ '<') → cur.length ≤ maxLength →
      (∀ p ∈ parts, p.length ≤ maxLength) →
      ∀ p ∈ splitLoop maxLength fuel rest cur [] parts, p.length ≤ maxLength := by
  intro fuel
  induction fuel with
  | zero =>
    intro rest cur parts hrest hcur hparts p hp
    rcases rest with _ | ⟨ch, rtl⟩ <;>
      exact (mem_final_part (by simpa [splitLoop] using hp)).elim (hparts p) (fun h => h ▸ hcur)
  | succ fuel ih =>
    intro rest cur parts hrest hcur hparts p hp
    rcases rest with _ | ⟨ch, rtl⟩
    · exact (mem_final_part (by simpa [splitLoop] using hp)).elim (hparts p) (fun h => h ▸ hcur)
    · have hch : ch ≠ '<' := hrest ch (by simp)
      by_cases hflush : maxLength ≤ cur.length
      · have hlen : cur.length = maxLength := le_antisymm hcur hflush
        have h1 : 1 ≤ cur.length := le_trans hmax hflush
        obtain ⟨hb1, hb2⟩ := breakPos_bounds maxLength cur h1
        simp only [splitLoop, if_pos hflush, if_neg hch, flushStep, closingTags,
          openingTags, List.reverse_nil, joinTags, List.append_nil, List.nil_append] at hp
        refine ih rtl _ _ (fun c hc => hrest c (List.mem_cons_of_mem _ hc)) ?_ ?_ p hp
        · simp only [List.length_append, List.length_drop, List.length_cons,
            List.length_nil]
          omega
        · intro q hq
          rcases List.mem_append.mp hq with h | h
          · exact hparts q h
          · simp only [List.mem_singleton] at h
            subst h
            simp only [List.length_take]
            omega
      · simp only [splitLoop, if_neg hflush, if_neg hch] at hp
        refine ih rtl _ _ (fun c hc => hrest c (List.mem_cons_of_mem _ hc)) ?_ hparts p hp
        simp only [List.length_append, List.length_cons, List.length_nil]
        omega

-- ### claim theorems for the splitter ###

/-- C7: for every string `s` and bound `n` with `len(s) <= n`,
`split_response(s, n)` is exactly the one-element sequence `[s]`. -/
theorem split_identity_short (s : List Char) (n : Nat) (h : s.length ≤ n) :
    split_response s n = [s] := by
  unfold split_response
  rw [if_pos h]

/-- C7 witness: the identity case at a concrete short input. -/
theorem split_identity_short_wit :
    split_response (str "Hello world.") 4000 = [str "Hello world."] :=
  split_identity_short (str "Hello world.") 4000 (by decide)

/-- C1 failing input: on the well-formed input `"a.<b>xy</b>"` with
`max_length = 5`, `split_response` emits the chunk `"a.</b>"`, whose closing
tag has no matching opening tag in the same chunk, and the chunk
`"<b><b>x</b>"`, whose independent scan ends with the open tag `b` still on
the stack — the claimed per-chunk tag balance fails. -/
theorem splitter_chunk_tag_balance_bug :
    split_response (str "a.<b>xy</b>") 5 =
      [str "a.</b>", str "<b><b>x</b>", str "<b>y</b>"] ∧
    chunkStack (str "<b><b>x</b>") = [str "b"] ∧
    chunkStack (str "<b><b>x</b>") ≠ [] := by
  refine ⟨by decide, by decide, by decide⟩

/-- C2 counterexample: on the well-formed input `"<b>aa</b>a"` with
`max_length = 5`, the first chunk is `"<b>aa</b>"` of length `9 > 5`: the
closing tags appended at a break push a chunk beyond `max_length`. -/
theorem split_chunk_length_exceeds_max :
    split_response (str "<b>aa</b>a") 5 = [str "<b>aa</b>", str "<b></b>", str "a"] ∧
    5 < (str "<b>aa</b>").length := by
  refine ⟨by decide, by decide⟩

/-- C2 amended: for input containing no `<` (hence no tags, so no tag text is
ever appended at a break) and positive `maxLength`, every chunk returned by
`split_response` has length at most `maxLength`. -/
theorem split_chunk_length_le_max_of_tagfree (text : List Char) (maxLength : Nat)
    (htag : ∀ c ∈ text, c ≠ '<') (hmax : 1 ≤ maxLength) :
    ∀ p ∈ split_response text maxLength, p.length ≤ maxLength := by
  unfold split_response
  by_cases h : text.length ≤ maxLength
  · rw [if_pos h]
    intro p hp
    simp only [List.mem_singleton] at hp
    subst hp; exact h
  · rw [if_neg h]
    exact splitLoop_tagfree_bound maxLength hmax text.length text [] [] htag
      (by simp) (by simp)

/-- C2 amended witness: the theorem applied at `"abcdef"`, `maxLength = 3`,
chunk `"abc"`. -/
theorem split_chunk_length_le_max_of_tagfree_wit :
    (str "abc").length ≤ 3 :=
  split_chunk_length_le_max_of_tagfree (str "abcdef") 3 (by decide) (by decide)
    (str "abc") (by decide)

/-- C8: when the scan of `split_response` meets a closing tag whose name does
not match the top of the open-tag stack (in particular when the stack is
empty), the stack is passed on unchanged, the closing tag text is still
appended to the current part, and the iteration totally reduces to the next
loop state (no failure). -/
theorem split_unmatched_close_keeps_stack
    (fuel maxLength : Nat) (rest cur : List Char) (tag_name : List Char) (tag_length : Nat)
    (open_tags parts : List (List Char))
    (hm : matchCloseTag rest = some (tag_name, tag_length))
    (hns : open_tags.getLast? ≠ some tag_name)
    (hnf : cur.length < maxLength) :
    splitLoop maxLength (fuel + 1) rest cur open_tags parts =
      splitLoop maxLength fuel (rest.drop tag_length)
        (cur ++ rest.take tag_length) open_tags parts := by
  have hshape : ∃ c r, rest = '<' :: '/' :: c :: r := by
    rw [matchCloseTag.eq_def] at hm
    split at hm
    · rename_i c r
      exact ⟨c, r, rfl⟩
    · simp at hm
  obtain ⟨c, r, rfl⟩ := hshape
  have hopen : matchOpenTag ('<' :: '/' :: c :: r) = none := rfl
  simp only [splitLoop, if_neg (Nat.not_le.mpr hnf), hopen, hm, if_neg hns, ite_true]

/-- C8 witness: a concrete unmatched closing tag `</i>` against stack `["b"]`. -/
theorem split_unmatched_close_keeps_stack_wit :
    splitLoop 10 (4 + 1) (str "</i>x") [] [str "b"] [] =
      splitLoop 10 4 ((str "</i>x").drop 4) ([] ++ (str "</i>x").take 4) [str "b"] [] :=
  split_unmatched_close_keeps_stack 4 10 (str "</i>x") [] (str "i") 4 [str "b"] []
    (by decide) (by decide) (by decide)

-- ### break-point refinement lemmas (C6) ###

theorem rfind_cons (a : Char) (l : List Char) (c : Char) :
    rfind (a :: l) c =
      if 0 ≤ rfind l c then rfind l c + 1 else if a = c then 0 else -1 := by
  rcases h : rfindNat l c with _ | j
  · have hl : rfind l c = -1 := by unfold rfind; rw [h]
    have ha : rfindNat (a :: l) c = if a = c then some 0 else none := by
      unfold rfindNat; rw [h]
    rw [hl, if_neg (by norm_num)]
    by_cases hac : a = c
    · have h0 : rfindNat (a :: l) c = some 0 := by rw [ha, if_pos hac]
      unfold rfind
      rw [h0, if_pos hac]
      rfl
    · have h0 : rfindNat (a :: l) c = none := by rw [ha, if_neg hac]
      unfold rfind
      rw [h0, if_neg hac]
  · have hl : rfind l c = (j : Int) := by unfold rfind; rw [h]
    have ha : rfindNat (a :: l) c = some (j + 1) := by
      unfold rfindNat; rw [h]
    have hv : rfind (a :: l) c = ((j + 1 : Nat) : Int) := by unfold rfind; rw [ha]
    rw [hv, hl, if_pos (by omega)]
    omega

theorem rightmostMem_cons (a : Char) (l : List Char) (S : List Char) :
    optIdx (rightmostMem (a :: l) S) =
      if 0 ≤ optIdx (rightmostMem l S) then optIdx (rightmostMem l S) + 1
      else if S.contains a then 0 else -1 := by
  rcases h : rightmostMem l S with _ | j
  · have ha : rightmostMem (a :: l) S = if S.contains a then some 0 else none := by
      unfold rightmostMem; rw [h]
    rw [ha]
    rw [if_neg (show ¬ (0 : Int) ≤ optIdx none by norm_num [optIdx])]
    by_cases hac : S.contains a
    · rw [if_pos hac, if_pos hac]; rfl
    · rw [if_neg hac, if_neg hac]; rfl
  · have ha : rightmostMem (a :: l) S = some (j + 1) := by
      unfold rightmostMem; rw [h]
    rw [ha, if_pos (show (0 : Int) ≤ optIdx (some j) by simp [optIdx])]
    show ((j + 1 : Nat) : Int) = (j : Int) + 1
    omega

theorem rfind_ge_neg_one (s : List Char) (c : Char) : -1 ≤ rfind s c := by
  rcases rfind_neg_one_or_nonneg s c with h | ⟨h, _⟩ <;> omega

theorem maxRfind_eq (cur : List Char) :
    optIdx (rightmostMem cur ['.', '!', '?']) =
      max (rfind cur '.') (max (rfind cur '!') (rfind cur '?')) := by
  induction cur with
  | nil => decide
  | cons a l ih =>
    have hd := rfind_ge_neg_one l '.'
    have he := rfind_ge_neg_one l '!'
    have hq := rfind_ge_neg_one l '?'
    rw [rightmostMem_cons, rfind_cons a l '.', rfind_cons a l '!', rfind_cons a l '?', ih]
    cases hcv : (['.', '!', '?'].contains a) with
    | true =>
      have hmem : a = '.' ∨ a = '!' ∨ a = '?' := by simpa using hcv
      simp only [eq_self_iff_true, if_true]
      split_ifs <;> first | omega | tauto
    | false =>
      have hmem : ¬ a = '.' ∧ ¬ a = '!' ∧ ¬ a = '?' := by simpa using hcv
      simp only [Bool.false_eq_true, if_false]
      split_ifs <;> first | omega | tauto

theorem rightmostMem_single (cur : List Char) (c : Char) :
    optIdx (rightmostMem cur [c]) = rfind cur c := by
  induction cur with
  | nil => rfl
  | cons a l ih =>
    have hb := rfind_ge_neg_one l c
    rw [rightmostMem_cons, rfind_cons, ih]
    cases hcv : ([c].contains a) with
    | true =>
      have hmem : a = c := by simpa using hcv
      simp only [eq_self_iff_true, if_true]
      split_ifs <;> first | omega | tauto
    | false =>
      have hmem : ¬ a = c := by simpa using hcv
      simp only [Bool.false_eq_true, if_false]
      split_ifs <;> first | omega | tauto

/-- C6: the break position used by `split_response` whenever the buffer has
reached `maxLength` (the `breakPos` used by `flushStep`) is exactly the
claim's choice: the rightmost `.`/`!`/`?` unless earlier than
`maxLength - 200`, failing that the rightmost space unless earlier than
`maxLength - 300`, failing that a hard cut at the buffer's end, the chosen
position advanced by one so the terminating character is included. -/
theorem breakPos_matches_claim (maxLength : Nat) (cur : List Char) :
    breakPos maxLength cur = claimBreakPos maxLength cur := by
  have hm := maxRfind_eq cur
  have hs := rightmostMem_single cur ' '
  have hne : ∀ n : Nat, ((n : Int) = -1) = False := fun n => eq_false (by omega)
  simp only [breakPos, claimBreakPos, claimSpaceBreak, ← hm, ← hs]
  rcases h1 : rightmostMem cur ['.', '!', '?'] with _ | j1 <;>
    rcases h2 : rightmostMem cur [' '] with _ | j2 <;>
      simp only [h1, h2, optIdx, hne, eq_self_iff_true, false_or, true_or, or_false,
        or_true, if_true] <;>
      (try split_ifs) <;>
      first
        | omega
        | (have hX := (‹False ∨ _›).resolve_left (fun h => h)
           omega)

-- ### user-manager claim (C10) ###

/-- C10: from any state with at most `max_users` stored users, the user
count stays within the bound: `add_user` returns `False` and leaves the state
unchanged when the user already exists or the limit is reached, otherwise it
appends exactly one record and returns `True`; `update_tokens` and
`update_last_activity` never change the user count. -/
theorem add_user_preserves_bound (m : UserManager) (uid : String)
    (username first_name : Option String) (now : String) (tok : Int)
    (h : m.users.length ≤ m.max_users) :
    (add_user m uid username first_name now).1.users.length ≤ m.max_users ∧
    ((m.users.map Prod.fst).contains uid = true →
      add_user m uid username first_name now = (m, false)) ∧
    ((m.users.map Prod.fst).contains uid = false → m.max_users ≤ m.users.length →
      add_user m uid username first_name now = (m, false)) ∧
    ((m.users.map Prod.fst).contains uid = false → m.users.length < m.max_users →
      (add_user m uid username first_name now).2 = true ∧
      (add_user m uid username first_name now).1.users.length = m.users.length + 1) ∧
    (update_tokens m uid tok).users.length = m.users.length ∧
    (update_last_activity m uid now).users.length = m.users.length := by
  cases hcv : (m.users.map Prod.fst).contains uid with
  | true =>
    have he : add_user m uid username first_name now = (m, false) := by
      unfold add_user; rw [hcv]; simp
    have hu1 : (update_tokens m uid tok).users.length = m.users.length := by
      unfold update_tokens; rw [hcv]; simp
    have hu2 : (update_last_activity m uid now).users.length = m.users.length := by
      unfold update_last_activity; rw [hcv]; simp
    exact ⟨by rw [he]; exact h, fun _ => he,
      fun hf _ => absurd hf (by decide),
      fun hf _ => absurd hf (by decide), hu1, hu2⟩
  | false =>
    have hu1 : (update_tokens m uid tok).users.length = m.users.length := by
      unfold update_tokens; rw [hcv]; simp
    have hu2 : (update_last_activity m uid now).users.length = m.users.length := by
      unfold update_last_activity; rw [hcv]; simp
    by_cases hl : m.users.length < m.max_users
    · have hlen : (add_user m uid username first_name now).1.users.length =
          m.users.length + 1 := by
        unfold add_user; rw [hcv]; simp [can_accept_new_user, hl]
      have hret : (add_user m uid username first_name now).2 = true := by
        unfold add_user; rw [hcv]; simp [can_accept_new_user, hl]
      exact ⟨by rw [hlen]; omega, fun ht => absurd ht (by decide),
        fun _ hge => absurd hl (by omega), fun _ _ => ⟨hret, hlen⟩, hu1, hu2⟩
    · have he : add_user m uid username first_name now = (m, false) := by
        unfold add_user; rw [hcv]; simp [can_accept_new_user, hl]
      exact ⟨by rw [he]; exact h, fun ht => absurd ht (by decide),
        fun _ _ => he, fun _ hlt => absurd hlt hl, hu1, hu2⟩

/-- C10 witness: the theorem applied at a concrete state below the limit. -/
theorem add_user_preserves_bound_wit :
    (add_user demoManager "42" none none "t0").1.users.length ≤ demoManager.max_users :=
  (add_user_preserves_bound demoManager "42" none none "t0" 5 (by decide)).1

-- ### round-trip machinery (C3): structural lemmas ###

theorem renderItems_append (a b : List HItem) :
    renderItems (a ++ b) = renderItems a ++ renderItems b := by
  induction a with
  | nil => rfl
  | cons it its ih => simp [renderItems, ih]

theorem visibleText_append (a b : List HItem) :
    visibleText (a ++ b) = visibleText a ++ visibleText b := by
  induction a with
  | nil => rfl
  | cons it its ih => cases it <;> simp [visibleText, ih]

theorem concatAll_append (a b : List (List Char)) :
    concatAll (a ++ b) = concatAll a ++ concatAll b := by
  induction a with
  | nil => rfl
  | cons p ps ih => simp [concatAll, ih]

theorem renderItem_ne_nil (it : HItem) : renderItem it ≠ [] := by
  cases it <;> simp [renderItem, openTagText, closeTagText]

theorem renderItems_eq_nil {its : List HItem} (h : renderItems its = []) : its = [] := by
  cases its with
  | nil => rfl
  | cons it its' =>
    exfalso
    rw [renderItems, List.append_eq_nil] at h
    exact renderItem_ne_nil it h.1

theorem visibleText_map_closeT (tags : List (List Char)) :
    visibleText (tags.map HItem.closeT) = [] := by
  induction tags with
  | nil => rfl
  | cons t ts ih => simpa [visibleText] using ih

theorem visibleText_map_openT (tags : List (List Char)) :
    visibleText (tags.map HItem.openT) = [] := by
  induction tags with
  | nil => rfl
  | cons t ts ih => simpa [visibleText] using ih

theorem closingTags_items (tags : List (List Char)) :
    closingTags tags = renderItems (tags.reverse.map HItem.closeT) := by
  unfold closingTags
  generalize tags.reverse = L
  induction L with
  | nil => rfl
  | cons t ts ih => simp [joinTags, renderItems, renderItem, ih]

theorem openingTags_items (tags : List (List Char)) :
    openingTags tags = renderItems (tags.map HItem.openT) := by
  unfold openingTags
  induction tags with
  | nil => rfl
  | cons t ts ih => simp [joinTags, renderItems, renderItem, ih]

theorem validName_all_alnum {n : List Char} (h : validName n = true) :
    ∀ c ∈ n, Char.isAlphanum c = true := by
  rcases n with _ | ⟨c, t⟩
  · simp [validName] at h
  · obtain ⟨hc, ht⟩ : c.isAlpha = true ∧ t.all Char.isAlphanum = true := by
      simpa [validName, Bool.and_eq_true] using h
    intro x hx
    rcases List.mem_cons.mp hx with rfl | hx'
    · simp [Char.isAlphanum, hc]
    · exact List.all_eq_true.mp ht x hx'

theorem alnum_ne {c : Char} (h : Char.isAlphanum c = true) :
    c ≠ '<' ∧ c ≠ '>' ∧ c ≠ '/' ∧ c ≠ '.' ∧ c ≠ '!' ∧ c ≠ '?' ∧ c ≠ ' ' := by
  refine ⟨?_, ?_, ?_, ?_, ?_, ?_, ?_⟩ <;>
    (intro hq; subst hq; exact absurd h (by decide))

-- ### round-trip machinery (C3): tag recognition on rendered items ###

theorem takeWhile_append_stop {p : Char → Bool} :
    ∀ (t : List Char), t.all p = true → ∀ (d : Char), p d = false → ∀ (r : List Char),
      (t ++ d :: r).takeWhile p = t := by
  intro t
  induction t with
  | nil => intro _ d hd r; simp [List.takeWhile_cons, hd]
  | cons a t' ih =>
    intro ht d hd r
    rw [List.all_cons, Bool.and_eq_true] at ht
    obtain ⟨ha, ht'⟩ := ht
    simp only [List.cons_append, List.takeWhile_cons, ha, if_true]
    rw [ih ht' d hd r]

theorem matchOpenTag_openItem (n : List Char) (r : List Char) (h : validName n = true) :
    matchOpenTag ('<' :: (n ++ '>' :: r)) = some (n, n.length + 2) := by
  rcases n with _ | ⟨c, t⟩
  · simp [validName] at h
  · obtain ⟨hc, ht⟩ : c.isAlpha = true ∧ t.all Char.isAlphanum = true := by
      simpa [validName, Bool.and_eq_true] using h
    show matchOpenTag ('<' :: c :: (t ++ '>' :: r)) = some (c :: t, (c :: t).length + 2)
    simp only [matchOpenTag, hc, if_true]
    rw [takeWhile_append_stop t ht '>' (by decide) r, List.drop_left' rfl]
    simp [List.length_cons]

theorem matchCloseTag_closeItem (n : List Char) (r : List Char) (h : validName n = true) :
    matchCloseTag ('<' :: '/' :: (n ++ '>' :: r)) = some (n, n.length + 3) := by
  rcases n with _ | ⟨c, t⟩
  · simp [validName] at h
  · obtain ⟨hc, ht⟩ : c.isAlpha = true ∧ t.all Char.isAlphanum = true := by
      simpa [validName, Bool.and_eq_true] using h
    show matchCloseTag ('<' :: '/' :: c :: (t ++ '>' :: r)) = some (c :: t, (c :: t).length + 3)
    simp only [matchCloseTag, hc, if_true]
    rw [takeWhile_append_stop t ht '>' (by decide) r, List.drop_left' rfl]
    simp [List.length_cons]

theorem matchOpenTag_closeItem (r : List Char) :
    matchOpenTag ('<' :: '/' :: r) = none := rfl

theorem drop_openItem (n : List Char) (r : List Char) :
    ('<' :: (n ++ '>' :: r)).drop (n.length + 2) = r := by
  have hsh : ('<' :: (n ++ '>' :: r)) = (('<' :: n) ++ ['>']) ++ r := by simp
  have hl : (('<' :: n) ++ ['>']).length = n.length + 2 := by
    simp [List.length_append, List.length_cons]
  rw [hsh, List.drop_left' hl]

theorem take_openItem (n : List Char) (r : List Char) :
    ('<' :: (n ++ '>' :: r)).take (n.length + 2) = openTagText n := by
  have hsh : ('<' :: (n ++ '>' :: r)) = (('<' :: n) ++ ['>']) ++ r := by simp
  have hl : (('<' :: n) ++ ['>']).length = n.length + 2 := by
    simp [List.length_append, List.length_cons]
  rw [hsh, List.take_left' hl]
  simp [openTagText]

theorem drop_closeItem (n : List Char) (r : List Char) :
    ('<' :: '/' :: (n ++ '>' :: r)).drop (n.length + 3) = r := by
  have hsh : ('<' :: '/' :: (n ++ '>' :: r)) = (('<' :: '/' :: n) ++ ['>']) ++ r := by simp
  have hl : (('<' :: '/' :: n) ++ ['>']).length = n.length + 3 := by
    simp [List.length_append, List.length_cons]
  rw [hsh, List.drop_left' hl]

theorem take_closeItem (n : List Char) (r : List Char) :
    ('<' :: '/' :: (n ++ '>' :: r)).take (n.length + 3) = closeTagText n := by
  have hsh : ('<' :: '/' :: (n ++ '>' :: r)) = (('<' :: '/' :: n) ++ ['>']) ++ r := by simp
  have hl : (('<' :: '/' :: n) ++ ['>']).length = n.length + 3 := by
    simp [List.length_append, List.length_cons]
  rw [hsh, List.take_left' hl]
  simp [closeTagText]

theorem selfclose_aux :
    ∀ (t : List Char), t.all Char.isAlphanum = true →
      ∀ (c : Char), Char.isAlphanum c = true → ∀ (r : List Char),
      ((c :: (t ++ '>' :: r)).drop t.length).take 2 ≠ ['/', '>'] := by
  intro t
  induction t with
  | nil =>
    intro _ c hc r heq
    simp only [List.length_nil, List.drop_zero, List.nil_append] at heq
    have h2 : (c :: '>' :: r).take 2 = [c, '>'] := rfl
    rw [h2] at heq
    have hcq : c = '/' := by
      have := List.cons.injEq c ['>'] '/' ['>'] ▸ heq
      exact this.1
    subst hcq
    exact absurd hc (by decide)
  | cons a t' ih =>
    intro ht c hc r
    rw [List.all_cons, Bool.and_eq_true] at ht
    obtain ⟨ha, ht'⟩ := ht
    show ((c :: ((a :: t') ++ '>' :: r)).drop (t'.length + 1)).take 2 ≠ ['/', '>']
    rw [show (c :: ((a :: t') ++ '>' :: r)) = c :: a :: (t' ++ '>' :: r) by simp,
      List.drop_succ_cons]
    exact ih ht' a ha r

theorem selfclose_openItem (n : List Char) (r : List Char) (h : validName n = true) :
    (('<' :: (n ++ '>' :: r)).drop (n.length + 2 - 2)).take 2 ≠ ['/', '>'] := by
  rcases n with _ | ⟨c, t⟩
  · simp [validName] at h
  · obtain ⟨hc, ht⟩ : c.isAlpha = true ∧ t.all Char.isAlphanum = true := by
      simpa [validName, Bool.and_eq_true] using h
    have hcA : Char.isAlphanum c = true := by simp [Char.isAlphanum, hc]
    show (('<' :: c :: (t ++ '>' :: r)).drop ((c :: t).length + 2 - 2)).take 2 ≠ ['/', '>']
    have hl : (c :: t).length + 2 - 2 = t.length + 1 := by simp
    rw [hl, List.drop_succ_cons]
    exact selfclose_aux t ht c hcA r

-- ### round-trip machinery (C3): the break point falls on an item boundary ###

theorem rfindNat_get (c : Char) :
    ∀ (s : List Char) (j : Nat), rfindNat s c = some j → s.get? j = some c := by
  intro s
  induction s with
  | nil => intro j h; simp [rfindNat] at h
  | cons a l ih =>
    intro j h
    unfold rfindNat at h
    rcases hr : rfindNat l c with _ | j'
    · rw [hr] at h
      by_cases hac : a = c
      · rw [if_pos hac] at h
        injection h with h
        subst hac
        rw [← h]
        rfl
      · rw [if_neg hac] at h; exact absurd h (by simp)
    · rw [hr] at h
      injection h with h
      rw [← h]
      exact ih j' hr

theorem rfind_nonneg_get (s : List Char) (c : Char) (h : 0 ≤ rfind s c) :
    s.get? (rfind s c).toNat = some c := by
  rcases hr : rfindNat s c with _ | j
  · have : rfind s c = -1 := by unfold rfind; rw [hr]
    omega
  · have hv : rfind s c = (j : Int) := by unfold rfind; rw [hr]
    rw [hv, Int.toNat_natCast]
    exact rfindNat_get c s j hr

theorem breakPos_cases (maxLength : Nat) (cur : List Char) :
    (breakPos maxLength cur).toNat = cur.length ∨
    (∃ j ch, (breakPos maxLength cur).toNat = j + 1 ∧ cur.get? j = some ch ∧
      (ch = '.' ∨ ch = '!' ∨ ch = '?' ∨ ch = ' ')) := by
  have hd := rfind_neg_one_or_nonneg cur '.'
  have he := rfind_neg_one_or_nonneg cur '!'
  have hq := rfind_neg_one_or_nonneg cur '?'
  have hs := rfind_neg_one_or_nonneg cur ' '
  simp only [breakPos]
  split_ifs with h1 h2 h2
  · -- bp0 too early or absent, space too early or absent: hard cut
    left; omega
  · -- bp0 too early or absent, space chosen
    right
    have hsp : 0 ≤ rfind cur ' ' := by omega
    refine ⟨(rfind cur ' ').toNat, ' ', by omega, rfind_nonneg_get cur ' ' hsp, by simp⟩
  · -- punct chosen but the second test still replaced it: impossible shapes aside,
    -- the hard cut is taken
    left; omega
  · -- punct chosen
    right
    have hb : 0 ≤ max (rfind cur '.') (max (rfind cur '!') (rfind cur '?')) := by omega
    rcases max_choice (rfind cur '.') (max (rfind cur '!') (rfind cur '?')) with hm | hm
    · refine ⟨(rfind cur '.').toNat, '.', by omega, ?_, by simp⟩
      exact rfind_nonneg_get cur '.' (by omega)
    · rcases max_choice (rfind cur '!') (rfind cur '?') with hm2 | hm2
      · refine ⟨(rfind cur '!').toNat, '!', by omega, ?_, by simp⟩
        exact rfind_nonneg_get cur '!' (by omega)
      · refine ⟨(rfind cur '?').toNat, '?', by omega, ?_, by simp⟩
        exact rfind_nonneg_get cur '?' (by omega)

theorem mem_openTagText {x : Char} {n : List Char} (h : x ∈ openTagText n) :
    x = '<' ∨ x ∈ n ∨ x = '>' := by
  unfold openTagText at h
  rcases List.mem_cons.mp h with h1 | h1
  · exact Or.inl h1
  · rcases List.mem_append.mp h1 with h2 | h2
    · exact Or.inr (Or.inl h2)
    · exact Or.inr (Or.inr (by simpa using h2))

theorem mem_closeTagText {x : Char} {n : List Char} (h : x ∈ closeTagText n) :
    x = '<' ∨ x = '/' ∨ x ∈ n ∨ x = '>' := by
  unfold closeTagText at h
  rcases List.mem_cons.mp h with h1 | h1
  · exact Or.inl h1
  · rcases List.mem_cons.mp h1 with h2 | h2
    · exact Or.inr (Or.inl h2)
    · rcases List.mem_append.mp h2 with h3 | h3
      · exact Or.inr (Or.inr (Or.inl h3))
      · exact Or.inr (Or.inr (Or.inr (by simpa using h3)))

theorem punct_not_in_tagItem {it : HItem} {x : Char}
    (hv : validItem it = true)
    (hp : x = '.' ∨ x = '!' ∨ x = '?' ∨ x = ' ') :
    ∀ hnl : (∀ c, it = HItem.lit c → False), x ∉ renderItem it := by
  intro _ hx
  cases it with
  | lit c => exact ‹∀ c, HItem.lit _ = HItem.lit c → False› _ rfl
  | openT n =>
    rcases mem_openTagText hx with h1 | h1 | h1
    · rcases hp with rfl | rfl | rfl | rfl <;> simp at h1
    · have := validName_all_alnum hv x h1
      rcases hp with rfl | rfl | rfl | rfl <;> exact absurd this (by decide)
    · rcases hp with rfl | rfl | rfl | rfl <;> simp at h1
  | closeT n =>
    rcases mem_closeTagText hx with h1 | h1 | h1 | h1
    · rcases hp with rfl | rfl | rfl | rfl <;> simp at h1
    · rcases hp with rfl | rfl | rfl | rfl <;> simp at h1
    · have := validName_all_alnum hv x h1
      rcases hp with rfl | rfl | rfl | rfl <;> exact absurd this (by decide)
    · rcases hp with rfl | rfl | rfl | rfl <;> simp at h1

theorem renderItems_split_at_char :
    ∀ (its : List HItem) (j : Nat) (c : Char),
      (∀ it ∈ its, validItem it = true) →
      (renderItems its).get? j = some c →
      (c = '.' ∨ c = '!' ∨ c = '?' ∨ c = ' ') →
      ∃ l1 l2, its = (l1 ++ [HItem.lit c]) ++ l2 ∧
        (renderItems (l1 ++ [HItem.lit c])).length = j + 1 := by
  intro its
  induction its with
  | nil => intro j c _ hg _; simp [renderItems] at hg
  | cons it its' ih =>
    intro j c hv hg hp
    rw [renderItems] at hg
    by_cases hj : j < (renderItem it).length
    · rw [List.get?_append hj] at hg
      cases it with
      | lit d =>
        have : j = 0 := by simp [renderItem] at hj; omega
        subst this
        have hd : d = c := by simpa [renderItem] using hg
        subst hd
        exact ⟨[], its', rfl, by simp [renderItems, renderItem]⟩
      | openT n =>
        exfalso
        have hmem : c ∈ renderItem (HItem.openT n) := List.get?_mem hg
        exact punct_not_in_tagItem (hv _ (by simp)) hp (fun _ h => by cases h) hmem
      | closeT n =>
        exfalso
        have hmem : c ∈ renderItem (HItem.closeT n) := List.get?_mem hg
        exact punct_not_in_tagItem (hv _ (by simp)) hp (fun _ h => by cases h) hmem
    · push_neg at hj
      rw [List.get?_append_right hj] at hg
      obtain ⟨l1, l2, hsplit, hlen⟩ :=
        ih (j - (renderItem it).length) c (fun x hx => hv x (by simp [hx])) hg hp
      refine ⟨it :: l1, l2, by simp [hsplit], ?_⟩
      have : renderItems ((it :: l1) ++ [HItem.lit c]) =
          renderItem it ++ renderItems (l1 ++ [HItem.lit c]) := by
        simp [renderItems]
      rw [this, List.length_append, hlen]
      omega

theorem flush_item_split (maxLength : Nat) (itsC : List HItem)
    (hC : ∀ it ∈ itsC, validItem it = true) :
    ∃ itsA itsB, itsC = itsA ++ itsB ∧
      (renderItems itsC).take ((breakPos maxLength (renderItems itsC)).toNat) =
        renderItems itsA ∧
      (renderItems itsC).drop ((breakPos maxLength (renderItems itsC)).toNat) =
        renderItems itsB := by
  rcases breakPos_cases maxLength (renderItems itsC) with hbp | ⟨j, ch, hbp, hget, hp⟩
  · exact ⟨itsC, [], by simp, by rw [hbp]; simp, by rw [hbp]; simp [renderItems]⟩
  · obtain ⟨l1, l2, hsplit, hlen⟩ := renderItems_split_at_char itsC j ch hC hget hp
    refine ⟨l1 ++ [HItem.lit ch], l2, by simpa using hsplit, ?_, ?_⟩
    · rw [hbp, hsplit, renderItems_append, ← hlen, List.take_left]
    · rw [hbp, hsplit, renderItems_append, ← hlen, List.drop_left]

theorem flushIf_spec (maxLength : Nat) (itsC : List HItem) (tags : List (List Char))
    (parts : List (List Char))
    (hC : ∀ it ∈ itsC, validItem it = true)
    (htags : ∀ n ∈ tags, validName n = true) :
    ∃ itsD itsC' parts',
      (if maxLength ≤ (renderItems itsC).length then
          ((flushStep maxLength (renderItems itsC) tags).2,
           parts ++ [(flushStep maxLength (renderItems itsC) tags).1])
        else (renderItems itsC, parts)) = (renderItems itsC', parts') ∧
      concatAll parts' = concatAll parts ++ renderItems itsD ∧
      (∀ it ∈ itsD, validItem it = true) ∧
      (∀ it ∈ itsC', validItem it = true) ∧
      visibleText itsD ++ visibleText itsC' = visibleText itsC := by
  by_cases hflush : maxLength ≤ (renderItems itsC).length
  · obtain ⟨itsA, itsB, hAB, htake, hdrop⟩ := flush_item_split maxLength itsC hC
    refine ⟨itsA ++ tags.reverse.map HItem.closeT,
      tags.map HItem.openT ++ itsB,
      parts ++ [renderItems (itsA ++ tags.reverse.map HItem.closeT)],
      ?_, ?_, ?_, ?_, ?_⟩
    · rw [if_pos hflush]
      simp only [flushStep]
      rw [htake, hdrop, closingTags_items, openingTags_items,
        renderItems_append, renderItems_append]
    · rw [concatAll_append]
      simp [concatAll]
    · intro it hit
      rcases List.mem_append.mp hit with h | h
      · exact hC it (by rw [hAB]; exact List.mem_append_left _ h)
      · obtain ⟨n, hn, rfl⟩ := List.mem_map.mp h
        exact htags n (List.mem_reverse.mp hn)
    · intro it hit
      rcases List.mem_append.mp hit with h | h
      · obtain ⟨n, hn, rfl⟩ := List.mem_map.mp h
        exact htags n hn
      · exact hC it (by rw [hAB]; exact List.mem_append_right _ h)
    · rw [visibleText_append, visibleText_append, visibleText_map_closeT,
        visibleText_map_openT, hAB, visibleText_append]
      simp
  · exact ⟨[], itsC, parts, by rw [if_neg hflush], by simp [renderItems], by simp, hC,
      by simp [visibleText]⟩

-- ### round-trip machinery (C3): the main loop invariant ###

theorem splitLoop_nil_rest (maxLength fuel : Nat) (cur : List Char)
    (tags parts : List (List Char)) :
    splitLoop maxLength fuel [] cur tags parts =
      parts ++ (if cur.isEmpty then [] else [cur]) := by
  cases fuel <;> rfl

theorem splitLoop_base_spec (maxLength fuel : Nat) (itsC : List HItem)
    (tags parts : List (List Char)) (hC : ∀ it ∈ itsC, validItem it = true) :
    ∃ itsOut,
      concatAll (splitLoop maxLength fuel [] (renderItems itsC) tags parts) =
        concatAll parts ++ renderItems itsOut ∧
      (∀ it ∈ itsOut, validItem it = true) ∧
      visibleText itsOut = visibleText itsC := by
  refine ⟨itsC, ?_, hC, rfl⟩
  rw [splitLoop_nil_rest]
  by_cases hcur : (renderItems itsC).isEmpty
  · have h0 : renderItems itsC = [] := by simpa [List.isEmpty_iff] using hcur
    rw [if_pos hcur, h0]
    simp [concatAll]
  · rw [if_neg hcur, concatAll_append]
    simp [concatAll]

theorem splitLoop_round_trip (maxLength : Nat) :
    ∀ (fuel : Nat) (itsR itsC : List HItem) (tags : List (List Char))
      (parts : List (List Char)),
      (renderItems itsR).length ≤ fuel →
      (∀ it ∈ itsR, validItem it = true) →
      (∀ it ∈ itsC, validItem it = true) →
      (∀ n ∈ tags, validName n = true) →
      ∃ itsOut,
        concatAll (splitLoop maxLength fuel (renderItems itsR) (renderItems itsC)
          tags parts) = concatAll parts ++ renderItems itsOut ∧
        (∀ it ∈ itsOut, validItem it = true) ∧
        visibleText itsOut = visibleText itsC ++ visibleText itsR := by
  intro fuel
  induction fuel with
  | zero =>
    intro itsR itsC tags parts hfuel hR hC htags
    have hRnil : itsR = [] :=
      renderItems_eq_nil (List.length_eq_zero.mp (Nat.le_zero.mp hfuel))
    subst hRnil
    obtain ⟨itsOut, h1, h2, h3⟩ := splitLoop_base_spec maxLength 0 itsC tags parts hC
    exact ⟨itsOut, h1, h2, by simpa [visibleText] using h3⟩
  | succ fuel ih =>
    intro itsR itsC tags parts hfuel hR hC htags
    cases itsR with
    | nil =>
      obtain ⟨itsOut, h1, h2, h3⟩ :=
        splitLoop_base_spec maxLength (fuel + 1) itsC tags parts hC
      exact ⟨itsOut, h1, h2, by simpa [visibleText] using h3⟩
    | cons it its' =>
      obtain ⟨itsD, itsC', parts', hst, hcat, hvD, hvC', hvis⟩ :=
        flushIf_spec maxLength itsC tags parts hC htags
      have hfuel' : (renderItems its').length ≤ fuel := by
        rw [renderItems, List.length_append] at hfuel
        have h1 : 0 < (renderItem it).length :=
          List.length_pos.mpr (renderItem_ne_nil it)
        omega
      have hR' : ∀ x ∈ its', validItem x = true := fun x hx => hR x (by simp [hx])
      cases it with
      | lit c =>
        have hcne : c ≠ '<' := by
          have := hR (HItem.lit c) (by simp)
          simpa [validItem] using this
        have hstep : splitLoop maxLength (fuel + 1) (renderItems (HItem.lit c :: its'))
            (renderItems itsC) tags parts =
            splitLoop maxLength fuel (renderItems its')
              (renderItems (itsC' ++ [HItem.lit c])) tags parts' := by
          rw [show renderItems (HItem.lit c :: its') = c :: renderItems its' from rfl]
          simp only [splitLoop]
          rw [hst, if_neg hcne, renderItems_append]
          rfl
        obtain ⟨itsOut', ho1, ho2, ho3⟩ := ih its' (itsC' ++ [HItem.lit c]) tags parts'
          hfuel' hR'
          (by intro x hx
              rcases List.mem_append.mp hx with h | h
              · exact hvC' x h
              · simp only [List.mem_singleton] at h
                subst h
                simpa [validItem] using hcne)
          htags
        refine ⟨itsD ++ itsOut', ?_, ?_, ?_⟩
        · rw [hstep, ho1, hcat, renderItems_append, List.append_assoc]
        · intro x hx
          rcases List.mem_append.mp hx with h | h
          · exact hvD x h
          · exact ho2 x h
        · rw [visibleText_append, ho3, visibleText_append,
            show visibleText [HItem.lit c] = [c] from rfl,
            show visibleText (HItem.lit c :: its') = c :: visibleText its' from rfl,
            ← hvis]
          simp
      | openT n =>
        have hn : validName n = true := by
          have := hR (HItem.openT n) (by simp)
          simpa [validItem] using this
        have hrend : renderItems [HItem.openT n] = openTagText n := by
          simp [renderItems, renderItem]
        have hrest : renderItems (HItem.openT n :: its') =
            '<' :: (n ++ '>' :: renderItems its') := by
          simp [renderItems, renderItem, openTagText]
        have hstep : splitLoop maxLength (fuel + 1) (renderItems (HItem.openT n :: its'))
            (renderItems itsC) tags parts =
            splitLoop maxLength fuel (renderItems its')
              (renderItems (itsC' ++ [HItem.openT n])) (tags ++ [n]) parts' := by
          rw [hrest]
          simp only [splitLoop, hst, matchOpenTag_openItem n (renderItems its') hn,
            eq_self_iff_true, if_true, drop_openItem, take_openItem]
          rw [if_neg (selfclose_openItem n (renderItems its') hn),
            renderItems_append, hrend]
        obtain ⟨itsOut', ho1, ho2, ho3⟩ := ih its' (itsC' ++ [HItem.openT n])
          (tags ++ [n]) parts' hfuel' hR'
          (by intro x hx
              rcases List.mem_append.mp hx with h | h
              · exact hvC' x h
              · simp only [List.mem_singleton] at h
                subst h
                simpa [validItem] using hn)
          (by intro m hm
              rcases List.mem_append.mp hm with h | h
              · exact htags m h
              · simp only [List.mem_singleton] at h
                subst h
                exact hn)
        refine ⟨itsD ++ itsOut', ?_, ?_, ?_⟩
        · rw [hstep, ho1, hcat, renderItems_append, List.append_assoc]
        · intro x hx
          rcases List.mem_append.mp hx with h | h
          · exact hvD x h
          · exact ho2 x h
        · rw [visibleText_append, ho3, visibleText_append,
            show visibleText [HItem.openT n] = [] from rfl,
            show visibleText (HItem.openT n :: its') = visibleText its' from rfl,
            ← hvis]
          simp
      | closeT n =>
        have hn : validName n = true := by
          have := hR (HItem.closeT n) (by simp)
          simpa [validItem] using this
        have hrend : renderItems [HItem.closeT n] = closeTagText n := by
          simp [renderItems, renderItem]
        have hrest : renderItems (HItem.closeT n :: its') =
            '<' :: '/' :: (n ++ '>' :: renderItems its') := by
          simp [renderItems, renderItem, closeTagText]
        have hstep : splitLoop maxLength (fuel + 1) (renderItems (HItem.closeT n :: its'))
            (renderItems itsC) tags parts =
            splitLoop maxLength fuel (renderItems its')
              (renderItems (itsC' ++ [HItem.closeT n]))
              (if tags.getLast? = some n then tags.dropLast else tags) parts' := by
          rw [hrest]
          simp only [splitLoop, hst, matchOpenTag_closeItem,
            matchCloseTag_closeItem n (renderItems its') hn,
            eq_self_iff_true, if_true, drop_closeItem, take_closeItem]
          rw [renderItems_append, hrend]
        obtain ⟨itsOut', ho1, ho2, ho3⟩ := ih its' (itsC' ++ [HItem.closeT n])
          (if tags.getLast? = some n then tags.dropLast else tags) parts' hfuel' hR'
          (by intro x hx
              rcases List.mem_append.mp hx with h | h
              · exact hvC' x h
              · simp only [List.mem_singleton] at h
                subst h
                simpa [validItem] using hn)
          (by intro m hm
              split at hm
              · exact htags m (List.dropLast_subset _ hm)
              · exact htags m hm)
        refine ⟨itsD ++ itsOut', ?_, ?_, ?_⟩
        · rw [hstep, ho1, hcat, renderItems_append, List.append_assoc]
        · intro x hx
          rcases List.mem_append.mp hx with h | h
          · exact hvD x h
          · exact ho2 x h
        · rw [visibleText_append, ho3, visibleText_append,
            show visibleText [HItem.closeT n] = [] from rfl,
            show visibleText (HItem.closeT n :: its') = visibleText its' from rfl,
            ← hvis]
          simp

-- ### round-trip machinery (C3): tag stripping on rendered items ###

theorem stripAux_skip (n : List Char) (h : ∀ c ∈ n, c ≠ '>') (r : List Char) :
    stripAux true (n ++ '>' :: r) = stripAux false r := by
  induction n with
  | nil => simp [stripAux]
  | cons a t ih =>
    have ha : a ≠ '>' := h a (by simp)
    simp only [List.cons_append, stripAux, if_neg ha]
    exact ih (fun c hc => h c (by simp [hc]))

theorem stripAux_item (it : HItem) (hv : validItem it = true) (r : List Char) :
    stripAux false (renderItem it ++ r) = visibleText [it] ++ stripAux false r := by
  cases it with
  | lit c =>
    have hc : c ≠ '<' := by simpa [validItem] using hv
    simp [renderItem, stripAux, hc, visibleText]
  | openT n =>
    have hn : validName n = true := by simpa [validItem] using hv
    have hne : ∀ c ∈ n, c ≠ '>' := fun c hc =>
      (alnum_ne (validName_all_alnum hn c hc)).2.1
    have hsh : renderItem (HItem.openT n) ++ r = '<' :: (n ++ '>' :: r) := by
      simp [renderItem, openTagText]
    rw [hsh]
    show (if '<' = '<' then stripAux true (n ++ '>' :: r)
      else '<' :: stripAux false (n ++ '>' :: r)) = visibleText [HItem.openT n] ++ _
    rw [if_pos rfl, stripAux_skip n hne r]
    rfl
  | closeT n =>
    have hn : validName n = true := by simpa [validItem] using hv
    have hne : ∀ c ∈ ('/' :: n), c ≠ '>' := by
      intro c hc
      rcases List.mem_cons.mp hc with rfl | hc'
      · decide
      · exact (alnum_ne (validName_all_alnum hn c hc')).2.1
    have hsh : renderItem (HItem.closeT n) ++ r = '<' :: (('/' :: n) ++ '>' :: r) := by
      simp [renderItem, closeTagText]
    rw [hsh]
    show (if '<' = '<' then stripAux true (('/' :: n) ++ '>' :: r)
      else '<' :: stripAux false (('/' :: n) ++ '>' :: r)) =
      visibleText [HItem.closeT n] ++ _
    rw [if_pos rfl, stripAux_skip ('/' :: n) hne r]
    rfl

theorem stripAux_items :
    ∀ (its : List HItem), (∀ it ∈ its, validItem it = true) → ∀ (r : List Char),
      stripAux false (renderItems its ++ r) = visibleText its ++ stripAux false r := by
  intro its
  induction its with
  | nil => intro _ r; rfl
  | cons it its' ih =>
    intro hv r
    rw [renderItems, List.append_assoc, stripAux_item it (hv it (by simp)),
      ih (fun x hx => hv x (by simp [hx])) r]
    cases it <;> simp [visibleText]

theorem stripTags_items (its : List HItem) (hv : ∀ it ∈ its, validItem it = true) :
    stripTags (renderItems its) = visibleText its := by
  have := stripAux_items its hv []
  rw [List.append_nil] at this
  unfold stripTags
  rw [this]
  simp [stripAux]

/-- C3: for every well-formed inline-HTML input (a rendered sequence of
literal characters and attribute-free `<name>`/`</name>` tags with valid
names) and positive `maxLength`, the concatenation of all chunks returned by
`split_response`, with every HTML tag removed, equals the original text with
every tag removed: the visible text is preserved across splitting. -/
theorem split_visible_text_roundtrip (its : List HItem) (maxLength : Nat)
    (hv : ∀ it ∈ its, validItem it = true) (hmax : 1 ≤ maxLength) :
    stripTags (concatAll (split_response (renderItems its) maxLength)) =
      stripTags (renderItems its) := by
  unfold split_response
  by_cases h : (renderItems its).length ≤ maxLength
  · rw [if_pos h]
    simp [concatAll]
  · rw [if_neg h]
    obtain ⟨itsOut, hcat, hvOut, hvis⟩ :=
      splitLoop_round_trip maxLength (renderItems its).length its [] [] []
        (le_refl _) hv (by simp) (by simp)
    rw [show renderItems ([] : List HItem) = [] from rfl] at hcat
    simp only [concatAll, List.nil_append] at hcat
    rw [hcat, stripTags_items itsOut hvOut, stripTags_items its hv]
    simpa [visibleText] using hvis

/-- C3 witness: the round trip at the concrete well-formed input
`"<b>a.x</b>y"` with `maxLength = 5`. -/
theorem split_visible_text_roundtrip_wit :
    stripTags (concatAll (split_response (renderItems demoItems) 5)) =
      stripTags (renderItems demoItems) :=
  split_visible_text_roundtrip demoItems 5 (by decide) (by decide)
